import Mathlib

/-!
Shallow embedding of `src/crawler.py`, an asyncio web crawler that discovers
the link structure of a website up to a bounded depth and records it as a
directed graph.

The crawl is modelled as a small-step transition system.  Under the cooperative scheduling of asyncio, a consumer task can only be interleaved with other
tasks at a true suspension point.  In `consume` (lines 75–105) these are the
`await queue.get()` when the queue is empty and the network fetch inside
`fetch_links`; `await queue.put(...)` on an unbounded `asyncio.Queue` and
`await produce(...)` complete without yielding control.  Hence each worker
step is atomic from a dequeue up to the start of a fetch, and from the end of
a fetch through candidate processing to `queue.task_done()`.

Python exceptions are modelled explicitly: the code has no try/except in the
consumer, so any exception raised while a worker processes an item propagates
out of `consume` and permanently kills that consumer task (modelled by the
worker status `crashed`); mutations performed before the raise persist.
-/

namespace Crawler

instance {ε α : Type} [DecidableEq ε] [DecidableEq α] : DecidableEq (Except ε α)
  | .ok a, .ok b =>
    if h : a = b then isTrue (by rw [h]) else isFalse (fun hh => by cases hh; exact h rfl)
  | .ok _, .error _ => isFalse (fun hh => by cases hh)
  | .error _, .ok _ => isFalse (fun hh => by cases hh)
  | .error e, .error f =>
    if h : e = f then isTrue (by rw [h]) else isFalse (fun hh => by cases hh; exact h rfl)

/-- Python exceptions that the crawler code can raise while processing a page. -/
inductive PyError
  | valueError (msg : String)
  | typeError (msg : String)
  | keyError (key : String)
deriving DecidableEq, Repr

/-- The Python `set.add` operation: insert an element, a no-op when already present.  The
sets `urls_to_visit` and `visited_urls` are modelled as duplicate-free lists
of strings. -/
def set_add (s : List String) (a : String) : List String :=
  if a ∈ s then s else s ++ [a]

/-- The `Link` dataclass (crawler.py lines 11–17): `@dataclass(repr=True,
eq=True, order=True, frozen=True)` with fields in declaration order
`depth : int = 0`, `url : str = ""`. -/
structure Link where
  depth : Nat
  url : String
deriving DecidableEq, Repr

/-- The `__lt__` generated by `dataclass(order=True)` compares the field
tuples `(self.depth, self.url) < (other.depth, other.url)`; Python tuple
comparison finds the first differing component and compares it, so for the
two-field tuple: if the depths differ the depths decide, otherwise the urls
decide.  String comparison is lexicographic by code point in both Python and
Lean. -/
instance : LT Link :=
  ⟨fun a b => if a.depth = b.depth then a.url < b.url else a.depth < b.depth⟩

/-- `scheme_chars` of `urllib.parse`: letters, digits and `+-.`. -/
def isSchemeChar (c : Char) : Bool := c.isAlphanum || c == '+' || c == '-' || c == '.'

/-- Split a character list at the first `':'`, returning the parts before and
after it (models `url.find(':')` in `urlsplit`). -/
def findColon : List Char → Option (List Char × List Char)
  | [] => none
  | c :: cs =>
    if c = ':' then some ([], cs)
    else
      match findColon cs with
      | none => none
      | some (pre, post) => some (c :: pre, post)

/-- The scheme-splitting step of `urllib.parse.urlsplit`: if the text before
the first `':'` is nonempty, starts with an ASCII letter, and consists of
scheme characters only, it is removed (and lower-cased) as the scheme. -/
def splitScheme (cs : List Char) : List Char × List Char :=
  match findColon cs with
  | some (c :: pre, post) =>
    if c.isAlpha && (c :: pre).all isSchemeChar then ((c :: pre).map Char.toLower, post)
    else ([], cs)
  | _ => ([], cs)

/-- Characters ending the netloc in `urllib.parse._splitnetloc`. -/
def netlocDelim (c : Char) : Bool := c == '/' || c == '?' || c == '#'

/-- The input normalisation of `urllib.parse.urlsplit` (CPython 3.11):
left-strip WHATWG C0 controls and space, then remove all tabs, carriage
returns and newlines. -/
def cleanUrl (url : String) : List Char :=
  (url.data.dropWhile (fun c => c ≤ ' ')).filter (fun c => !(c == '\t' || c == '\r' || c == '\n'))

/-- Models `urllib.parse.urlsplit` far enough for the crawler: returns
`(scheme, netloc, remainder)`.  After scheme removal, a remainder starting
with `//` has its netloc extracted up to the first `/`, `?` or `#`; a netloc
containing `[` without `]` (or vice versa) raises
`ValueError("Invalid IPv6 URL")`, uncaught by the crawler.  (The further urllib
bracketed-host and netloc NFKC validation, which only reject additional
inputs, are not modelled.) -/
def urlsplitCore (url : String) : Except PyError (List Char × List Char × List Char) :=
  let cs := cleanUrl url
  let sp := splitScheme cs
  match sp.2 with
  | '/' :: '/' :: rest2 =>
    let netloc := rest2.takeWhile (fun c => !netlocDelim c)
    let tail := rest2.dropWhile (fun c => !netlocDelim c)
    if ('[' ∈ netloc ∧ ']' ∉ netloc) ∨ (']' ∈ netloc ∧ '[' ∉ netloc) then
      .error (.valueError "Invalid IPv6 URL")
    else .ok (sp.1, netloc, tail)
  | _ => .ok (sp.1, [], sp.2)

/-- `get_domain` (crawler.py lines 27–28): `urlparse(url).netloc`. -/
def get_domain (url : String) : Except PyError String :=
  (urlsplitCore url).map (fun t => String.mk t.2.1)

/-- `is_relative_url` (crawler.py lines 30–31): `get_domain(url) == ""`. -/
def is_relative_url (url : String) : Except PyError Bool :=
  (get_domain url).map (fun d => d == "")

/-- `has_valid_domain` (crawler.py lines 24–25):
`get_domain(url) in allowed_domains`. -/
def has_valid_domain (url : String) (allowed_domains : List String) : Except PyError Bool :=
  (get_domain url).map (fun d => allowed_domains.contains d)

/-- The base-path directory: everything up to and including the last `/`. -/
def dirOf (path : List Char) : List Char :=
  (path.reverse.dropWhile (fun c => !(c == '/'))).reverse

/-- Models `urllib.parse.urljoin` for the reference shapes the crawler feeds
it (it is only called on hrefs whose own netloc is empty): a network-path
reference `//…` inherits the base scheme, an absolute-path reference `/…` is
attached to the base authority, and a relative-path reference replaces the
last segment of the base path.  The urllib dot-segment normalisation and
query/fragment merging are not modelled; no claim in this development depends
on them. -/
def urljoin (base url : String) : String :=
  match urlsplitCore base with
  | .error _ => url
  | .ok (bscheme, bnetloc, bpath) =>
    match cleanUrl url with
    | [] => base
    | '/' :: '/' :: rest => String.mk (bscheme ++ (':' :: '/' :: '/' :: rest))
    | '/' :: rest => String.mk (bscheme ++ (':' :: '/' :: '/' :: bnetloc) ++ ('/' :: rest))
    | cs => String.mk (bscheme ++ (':' :: '/' :: '/' :: bnetloc) ++ dirOf bpath ++ cs)

/-- Models the networkx `DiGraph` node store as an association list
`url ↦ depth`.  `add_node` (crawler.py lines 57–60) calls
`graph.add_node(link.url, depth=link.depth)`; per the documented networkx
semantics, adding a node that already exists keeps the identity of the node but
updates its attributes — the stored depth is overwritten. -/
def add_node (nodes : List (String × Nat)) (link : Link) : List (String × Nat) :=
  if nodes.any (fun p => p.1 == link.url) then
    nodes.map (fun p => if p.1 = link.url then (p.1, link.depth) else p)
  else nodes ++ [(link.url, link.depth)]

/-- `add_edge` (crawler.py lines 62–65): `graph.add_edge(link.url,
next_link.url)`; duplicate edges between the same ordered pair collapse. -/
def add_edge (edges : List (String × String)) (src tgt : String) : List (String × String) :=
  if (src, tgt) ∈ edges then edges else edges ++ [(src, tgt)]

/-- The shared mutable state of a crawl: the module-level frontier sets
`urls_to_visit` and `visited_urls` (crawler.py lines 21–22), the
`asyncio.Queue` contents and its unfinished-task counter, and the networkx
graph.  `produced`, `dequeued` and `fetched` are ghost histories recording,
in order, every url passed to `produce`, every link returned by
`queue.get()`, and every url for which `fetch_links` was invoked. -/
structure SharedState where
  urls_to_visit : List String
  visited_urls : List String
  queue : List Link
  unfinished : Nat
  nodes : List (String × Nat)
  edges : List (String × String)
  produced : List String
  dequeued : List Link
  fetched : List String
deriving DecidableEq

/-- The crawl parameters of `consume` (crawler.py line 75): the allowed
domains list, the maximum depth, and the denotation of
`re.match(url_regex, ·)` as a boolean predicate on candidate urls. -/
structure Config where
  allowed_domains : List String
  max_depth : Nat
  url_match : String → Bool

/-- `produce` (crawler.py lines 68–72): add the url of the link to
`urls_to_visit` and append the link to the queue (`await queue.put` on an
unbounded queue completes without suspending, so the whole call is atomic
with its caller); `queue.put` also increments the unfinished-task
counter. -/
def produce (st : SharedState) (link : Link) : SharedState :=
  { st with
    urls_to_visit := set_add st.urls_to_visit link.url
    queue := st.queue ++ [link]
    unfinished := st.unfinished + 1
    produced := st.produced ++ [link.url] }

/-- Lines 101–102 of `consume`: `urls_to_visit.remove(link.url)` followed by
`visited_urls.add(link.url)`.  The Python `set.remove` operation raises `KeyError` when
the element is absent, in which case the `add` never runs. -/
def mark_visited (to_visit visited : List String) (url : String) :
    Except PyError (List String × List String) :=
  if url ∈ to_visit then .ok (to_visit.erase url, set_add visited url)
  else .error (.keyError url)

/-- Lines 101–103 of `consume`: move the url of the dequeued link from
`urls_to_visit` to `visited_urls`, then `queue.task_done()` (decrement the
unfinished-task counter). -/
def finish (link : Link) (st : SharedState) : Except PyError SharedState :=
  match mark_visited st.urls_to_visit st.visited_urls link.url with
  | .error e => .error e
  | .ok (tv, v) =>
    .ok { st with urls_to_visit := tv, visited_urls := v, unfinished := st.unfinished - 1 }

/-- One iteration of the candidate loop in `consume` (lines 87–99) for a raw
candidate `cand` (`none` models an `<a>` tag with no `href`, which
`fetch_links` passes through unchanged because `urlparse(None)` coerces
`None` to empty bytes, whose bytes netloc compares unequal to the str
`""`).  `re.match(url_regex, None)` raises `TypeError`; a candidate failing
the regex is skipped; otherwise it is recorded as a node and an edge, and it
is produced when its domain is allowed and it is in neither frontier set.
The second component reports an uncaught exception; mutations made before
the raise persist in the first component. -/
def process_candidate (cfg : Config) (link : Link) (st : SharedState) (cand : Option String) :
    SharedState × Option PyError :=
  match cand with
  | none => (st, some (.typeError "expected string or bytes-like object, got NoneType"))
  | some next_link =>
    if cfg.url_match next_link then
      let nl : Link := ⟨link.depth + 1, next_link⟩
      let st1 : SharedState :=
        { st with
          nodes := add_node st.nodes nl
          edges := add_edge st.edges link.url next_link }
      match has_valid_domain next_link cfg.allowed_domains with
      | .error e => (st1, some e)
      | .ok dom_ok =>
        if dom_ok ∧ next_link ∉ st1.visited_urls ∧ next_link ∉ st1.urls_to_visit then
          (produce st1 nl, none)
        else (st1, none)
    else (st, none)

/-- The candidate loop of `consume` (lines 87–99) over the list returned by
`fetch_links`, stopping at the first uncaught exception. -/
def consume_candidates (cfg : Config) (link : Link) :
    List (Option String) → SharedState → SharedState × Option PyError
  | [], st => (st, none)
  | c :: cs, st =>
    match process_candidate cfg link st c with
    | (st1, some e) => (st1, some e)
    | (st1, none) => consume_candidates cfg link cs st1

/-- The body of the href loop in `fetch_links` (lines 47–53): read the
candidate href (possibly absent), and resolve it against the page url
when `is_relative_url` holds; `is_relative_url` can raise `ValueError` on an
unparseable url. -/
def resolve_href (page_url : String) (href : Option String) :
    Except PyError (Option String) :=
  match href with
  | none => .ok none
  | some u =>
    match is_relative_url u with
    | .error e => .error e
    | .ok true => .ok (some (urljoin page_url u))
    | .ok false => .ok (some u)

/-- The candidate-collection loop of `fetch_links` (lines 45–55), run after
the page body has been received: build the list of raw candidates, raising
at the first unparseable href. -/
def fetch_links_resolve (page_url : String) :
    List (Option String) → Except PyError (List (Option String))
  | [] => .ok []
  | h :: hs =>
    match resolve_href page_url h with
    | .error e => .error e
    | .ok c =>
      match fetch_links_resolve page_url hs with
      | .error e => .error e
      | .ok cs => .ok (c :: cs)

/-- Everything a worker does, atomically, after its fetch of `link.url`
returns raw hrefs `hrefs`: finish `fetch_links` (candidate resolution), run
the candidate loop, then mark the link visited and call `task_done`
(lines 85–103).  The second component reports an uncaught exception;
mutations made before the raise persist. -/
def after_fetch (cfg : Config) (link : Link) (hrefs : List (Option String))
    (st : SharedState) : SharedState × Option PyError :=
  match fetch_links_resolve link.url hrefs with
  | .error e => (st, some e)
  | .ok cands =>
    match consume_candidates cfg link cands st with
    | (st1, some e) => (st1, some e)
    | (st1, none) =>
      match finish link st1 with
      | .error e => (st1, some e)
      | .ok st2 => (st2, none)

/-- The status of one consumer task: parked at `await queue.get()`,
suspended inside the network fetch for a dequeued link, or dead because an
uncaught exception propagated out of its `while True` loop. -/
inductive WStatus
  | idle
  | fetching (link : Link)
  | crashed
deriving DecidableEq, Repr

/-- A global crawl configuration snapshot: the shared state plus the status
of each of the `parallelism` consumer tasks. -/
structure CrawlState where
  shared : SharedState
  workers : List WStatus
deriving DecidableEq

/-- Lines 78–82 of `consume`: `link = await queue.get()` followed by
`add_node(graph, link)`, recorded together with the dequeue ghost history. -/
def take_link (st : SharedState) (link : Link) (rest : List Link) : SharedState :=
  { st with
    queue := rest
    nodes := add_node st.nodes link
    dequeued := st.dequeued ++ [link] }

/-- The worker status after a block of work: still alive, or dead from an
uncaught exception. -/
def worker_after : Option PyError → WStatus
  | none => .idle
  | some _ => .crashed

/-- The atomic step a worker performs from `await queue.get()` returning
`link` up to its next suspension point: record the node; if
`link.depth < max_depth`, start the fetch (suspending); otherwise mark the
link visited and call `task_done` (a `KeyError` from `remove` would kill the
worker). -/
def dequeue_result (cfg : Config) (s : CrawlState) (i : Nat) (link : Link)
    (rest : List Link) : CrawlState :=
  let sh := take_link s.shared link rest
  if link.depth < cfg.max_depth then
    ⟨{ sh with fetched := sh.fetched ++ [link.url] }, s.workers.set i (WStatus.fetching link)⟩
  else
    match finish link sh with
    | .ok sh2 => ⟨sh2, s.workers⟩
    | .error _ => ⟨sh, s.workers.set i WStatus.crashed⟩

/-- The atomic step a worker performs when its fetch returns hrefs `hrefs`:
all of `after_fetch`, with the worker returning to `await queue.get()` on
success and dying on an uncaught exception. -/
def fetch_done_result (cfg : Config) (s : CrawlState) (i : Nat) (link : Link)
    (hrefs : List (Option String)) : CrawlState :=
  let r := after_fetch cfg link hrefs s.shared
  ⟨r.1, s.workers.set i (worker_after r.2)⟩

/-- The small-step transition relation of the crawl.  `dequeue` fires when an
idle worker takes the head of a nonempty queue; `fetch_done` resolves the
suspended fetch of a busy worker with an arbitrary list of raw hrefs (the
fetcher is an external collaborator, so the result is unconstrained);
`fetch_fail` models `fetch_links` raising (aiohttp network/timeout/decode
errors), which the consumer does not catch: the exception propagates, the
worker dies, and no further code of its loop body runs. -/
inductive Step (cfg : Config) : CrawlState → CrawlState → Prop
  | dequeue (s : CrawlState) (i : Nat) (link : Link) (rest : List Link)
      (hw : s.workers[i]? = some WStatus.idle)
      (hq : s.shared.queue = link :: rest) :
      Step cfg s (dequeue_result cfg s i link rest)
  | fetch_done (s : CrawlState) (i : Nat) (link : Link) (hrefs : List (Option String))
      (hw : s.workers[i]? = some (WStatus.fetching link)) :
      Step cfg s (fetch_done_result cfg s i link hrefs)
  | fetch_fail (s : CrawlState) (i : Nat) (link : Link)
      (hw : s.workers[i]? = some (WStatus.fetching link)) :
      Step cfg s ⟨s.shared, s.workers.set i WStatus.crashed⟩

/-- The state of `crawl` (lines 108–115) at the moment `await queue.join()`
suspends and the consumers first run: `parallelism` idle consumers were
spawned, and `produce(queue, Link(0, start_url))` seeded the frontier and
the queue (before this await no consumer has executed, since none of the
intervening awaits yields control). -/
def init (start_url : String) (parallelism : Nat) : CrawlState :=
  ⟨{ urls_to_visit := [start_url]
     visited_urls := []
     queue := [⟨0, start_url⟩]
     unfinished := 1
     nodes := []
     edges := []
     produced := [start_url]
     dequeued := []
     fetched := [] }, List.replicate parallelism WStatus.idle⟩

/-- The states a crawl with the given configuration, start url and
parallelism can be observed in. -/
def Reachable (cfg : Config) (start_url : String) (parallelism : Nat)
    (s : CrawlState) : Prop :=
  Relation.ReflTransGen (Step cfg) (init start_url parallelism) s

/-- The denotation of the default url regex `(http://.*|https://.*)`
(crawler.py line 125) under `re.match`: the url starts with `http://` or
with `https://`. -/
def http_pattern (s : String) : Bool :=
  "http://".data.isPrefixOf s.data || "https://".data.isPrefixOf s.data

/-- Invariants of the shared crawl state, maintained by every step:
the frontier sets are duplicate-free and disjoint; the urls dequeued so far
followed by the urls still queued are exactly the urls produced, each
produced at most once; a url is in a frontier set iff it was produced; the
fetch history is exactly the dequeued links below the depth bound; queued
links and graph nodes respect the depth bound; node keys and edges are
duplicate-free. -/
structure SInv (cfg : Config) (st : SharedState) : Prop where
  tv_nodup : st.urls_to_visit.Nodup
  v_nodup : st.visited_urls.Nodup
  disj : ∀ u ∈ st.urls_to_visit, u ∉ st.visited_urls
  hist : st.dequeued.map Link.url ++ st.queue.map Link.url = st.produced
  prod_nodup : st.produced.Nodup
  union : ∀ u, (u ∈ st.urls_to_visit ∨ u ∈ st.visited_urls) ↔ u ∈ st.produced
  fet : st.fetched = (st.dequeued.filter (fun l => l.depth < cfg.max_depth)).map Link.url
  qdepth : ∀ l ∈ st.queue, l.depth ≤ cfg.max_depth
  ndepth : ∀ p ∈ st.nodes, p.2 ≤ cfg.max_depth
  nkeys : (st.nodes.map Prod.fst).Nodup
  edges_nodup : st.edges.Nodup

/-- A worker that has taken an item from the queue and has not (and, if
dead, never will have) called `task_done` for it. -/
def busy : WStatus → Bool
  | .idle => false
  | .fetching _ => true
  | .crashed => true

/-- The global crawl invariant: the shared-state invariants, every worker
suspended in a fetch holds a link strictly below the depth bound, and the
unfinished-task counter of the queue equals the queued items plus the workers
that took an item and have not yet called `task_done` (busy or dead). -/
structure Inv (cfg : Config) (s : CrawlState) : Prop where
  sinv : SInv cfg s.shared
  wdepth : ∀ (i : Nat) (link : Link),
    s.workers[i]? = some (WStatus.fetching link) → link.depth < cfg.max_depth
  count : s.shared.unfinished =
    s.shared.queue.length + (s.workers.filter busy).length

/-- The invariant of a crawl run with `max_depth = 0`: nothing is ever
fetched, no edge is ever added, no worker ever reaches the fetching state,
and the run is either still before the single dequeue (the seeded queue
untouched, graph empty) or after it (queue empty, graph exactly the start
node at depth 0). -/
def ZInv (start_url : String) (s : CrawlState) : Prop :=
  s.shared.fetched = [] ∧ s.shared.edges = [] ∧
  (∀ l : Link, WStatus.fetching l ∉ s.workers) ∧
  ((s.shared.queue = [⟨0, start_url⟩] ∧ s.shared.unfinished = 1 ∧ s.shared.nodes = []) ∨
   (s.shared.queue = [] ∧ s.shared.nodes = [(start_url, 0)]))

/-! ### Concrete crawl runs used as witnesses and counterexamples -/

/-- A concrete configuration: allowed domain `a.test`, `maxDepth = 1`, and
the default pattern restricted to a kernel-computable prefix test. -/
def c1Cfg : Config := ⟨["a.test"], 1, fun u => "http".data.isPrefixOf u.data⟩

/-- The single worker has dequeued the start link and is suspended in its
fetch. -/
def c1S1 : CrawlState := dequeue_result c1Cfg (init "http://a.test/" 1) 0 ⟨0, "http://a.test/"⟩ []

/-- The fetch of the start url failed; the uncaught exception killed the
worker. -/
def c1S2 : CrawlState := ⟨c1S1.shared, c1S1.workers.set 0 WStatus.crashed⟩

/-- Configuration for the exactly-once counterexample run. -/
def cexCfg : Config := ⟨["a.test"], 1, fun u => "http".data.isPrefixOf u.data⟩

/-- Worker 0 dequeued the start link and is fetching it. -/
def cexS1 : CrawlState :=
  dequeue_result cexCfg (init "http://a.test/" 1) 0 ⟨0, "http://a.test/"⟩ []

/-- The fetch of the start page returned one candidate href. -/
def cexS2 : CrawlState :=
  fetch_done_result cexCfg cexS1 0 ⟨0, "http://a.test/"⟩ [some "http://a.test/b"]

/-- Worker 0 dequeued the depth-1 child; being at the depth bound it is
marked visited without a fetch, completing the crawl. -/
def cexS3 : CrawlState := dequeue_result cexCfg cexS2 0 ⟨1, "http://a.test/b"⟩ []

/-- Configuration for the depth-bound witness run. -/
def c5Cfg : Config := ⟨[], 2, http_pattern⟩

/-- One dequeue of the start link under `c5Cfg`. -/
def c5S1 : CrawlState := dequeue_result c5Cfg (init "http://w5.test/" 1) 0 ⟨0, "http://w5.test/"⟩ []

/-- Configuration for the malformed-href run. -/
def c6Cfg : Config := ⟨["a.test"], 1, fun u => "http".data.isPrefixOf u.data⟩

/-- Worker 0 dequeued the start link and is fetching it. -/
def c6S1 : CrawlState := dequeue_result c6Cfg (init "http://a.test/" 1) 0 ⟨0, "http://a.test/"⟩ []

/-- The fetch returned a single href that `urlparse` cannot parse; the
resulting `ValueError` killed the worker. -/
def c6S2 : CrawlState := fetch_done_result c6Cfg c6S1 0 ⟨0, "http://a.test/"⟩ [some "http://[bad"]

/-- Configuration with `maxDepth = 0`. -/
def c8Cfg : Config := ⟨[], 0, http_pattern⟩

/-- The single step of a `maxDepth = 0` crawl: the start link is dequeued,
recorded, and immediately marked visited without a fetch. -/
def c8S1 : CrawlState := dequeue_result c8Cfg (init "http://w8.test/" 1) 0 ⟨0, "http://w8.test/"⟩ []

/-- A configuration whose url pattern rejects everything and whose allowed
domain list is empty. -/
def c10Cfg : Config := ⟨[], 1, fun _ => false⟩

/-! ## Basic lemmas about the set and graph operations -/

theorem mem_set_add {s : List String} {a b : String} : b ∈ set_add s a ↔ b ∈ s ∨ b = a := by
  unfold set_add
  split
  · rename_i h
    constructor
    · exact Or.inl
    · rintro (hb | rfl)
      exacts [hb, h]
  · simp

theorem set_add_nodup {s : List String} {a : String} (h : s.Nodup) : (set_add s a).Nodup := by
  unfold set_add
  split
  · exact h
  · rename_i hna
    simpa [List.nodup_append, h] using hna

theorem map_fst_update (nodes : List (String × Nat)) (link : Link) :
    (nodes.map (fun p => if p.1 = link.url then (p.1, link.depth) else p)).map Prod.fst
      = nodes.map Prod.fst := by
  induction nodes with
  | nil => rfl
  | cons q qs ih =>
    by_cases hq : q.1 = link.url <;> simp [hq, ih]

theorem not_any_key {nodes : List (String × Nat)} {link : Link}
    (h : ¬ nodes.any (fun p => p.1 == link.url)) : link.url ∉ nodes.map Prod.fst := by
  intro hmem
  obtain ⟨p, hp, hfst⟩ := List.mem_map.mp hmem
  exact h (List.any_eq_true.mpr ⟨p, hp, by simp [hfst]⟩)

theorem add_node_keys_nodup {nodes : List (String × Nat)} {link : Link}
    (h : (nodes.map Prod.fst).Nodup) : ((add_node nodes link).map Prod.fst).Nodup := by
  unfold add_node
  split
  · rwa [map_fst_update]
  · rename_i hna
    simpa [List.nodup_append, h] using not_any_key hna

theorem add_node_depth_le {nodes : List (String × Nat)} {link : Link} {d : Nat}
    (hn : ∀ p ∈ nodes, p.2 ≤ d) (hl : link.depth ≤ d) :
    ∀ p ∈ add_node nodes link, p.2 ≤ d := by
  intro p hp
  unfold add_node at hp
  split at hp
  · obtain ⟨q, hq, rfl⟩ := List.mem_map.mp hp
    by_cases hq1 : q.1 = link.url
    · simpa [hq1] using hl
    · simpa [hq1] using hn q hq
  · rcases List.mem_append.mp hp with hp | hp
    · exact hn p hp
    · simp only [List.mem_singleton] at hp
      subst hp
      exact hl

theorem add_edge_nodup {edges : List (String × String)} {a b : String}
    (h : edges.Nodup) : (add_edge edges a b).Nodup := by
  unfold add_edge
  split
  · exact h
  · rename_i hni
    simpa [List.nodup_append, h] using hni

theorem mark_visited_ok {tv v : List String} {url : String} {pr : List String × List String}
    (h : mark_visited tv v url = .ok pr) :
    url ∈ tv ∧ pr = (tv.erase url, set_add v url) := by
  unfold mark_visited at h
  split at h
  · rename_i hmem
    injection h with h2
    exact ⟨hmem, h2.symm⟩
  · cases h

theorem mark_visited_error {tv v : List String} {url : String} {e : PyError}
    (h : mark_visited tv v url = .error e) : url ∉ tv := by
  unfold mark_visited at h
  split at h
  · cases h
  · assumption

theorem finish_ok {link : Link} {st st2 : SharedState} (h : finish link st = .ok st2) :
    link.url ∈ st.urls_to_visit ∧
    st2 = { st with urls_to_visit := st.urls_to_visit.erase link.url,
                    visited_urls := set_add st.visited_urls link.url,
                    unfinished := st.unfinished - 1 } := by
  unfold finish at h
  split at h
  · cases h
  · rename_i tv v heq
    injection h with h2
    obtain ⟨hmem, hpr⟩ := mark_visited_ok heq
    rw [Prod.mk.injEq] at hpr
    obtain ⟨h3, h4⟩ := hpr
    subst h3 h4
    exact ⟨hmem, h2.symm⟩

theorem finish_error {link : Link} {st : SharedState} {e : PyError}
    (h : finish link st = .error e) : link.url ∉ st.urls_to_visit := by
  unfold finish at h
  split at h
  · rename_i e2 heq
    exact mark_visited_error heq
  · cases h

theorem sinv_finish {cfg : Config} {link : Link} {st st2 : SharedState} (hs : SInv cfg st)
    (h : finish link st = .ok st2) : SInv cfg st2 := by
  obtain ⟨hmem, h2⟩ := finish_ok h
  subst h2
  refine ⟨hs.tv_nodup.erase _, set_add_nodup hs.v_nodup, ?_, hs.hist, hs.prod_nodup, ?_,
    hs.fet, hs.qdepth, hs.ndepth, hs.nkeys, hs.edges_nodup⟩
  · intro u hu hv2
    rw [hs.tv_nodup.mem_erase_iff] at hu
    rcases mem_set_add.mp hv2 with h3 | h3
    · exact hs.disj u hu.2 h3
    · exact hu.1 h3
  · intro u
    rw [← hs.union u, hs.tv_nodup.mem_erase_iff, mem_set_add]
    constructor
    · rintro (⟨hne, htv⟩ | hv2 | rfl)
      · exact Or.inl htv
      · exact Or.inr hv2
      · exact Or.inl hmem
    · rintro (htv | hv2)
      · by_cases he : u = link.url
        · exact Or.inr (Or.inr he)
        · exact Or.inl ⟨he, htv⟩
      · exact Or.inr (Or.inl hv2)

/-! ## Lemmas about the candidate-processing loop -/

theorem sinv_produce {cfg : Config} {st : SharedState} {link : Link}
    (hs : SInv cfg st) (hv : link.url ∉ st.visited_urls) (htv : link.url ∉ st.urls_to_visit)
    (hd : link.depth ≤ cfg.max_depth) : SInv cfg (produce st link) := by
  have hnp : link.url ∉ st.produced := fun hp => by
    rcases (hs.union link.url).mpr hp with h | h
    exacts [htv h, hv h]
  refine ⟨set_add_nodup hs.tv_nodup, hs.v_nodup, ?_, ?_, ?_, ?_, hs.fet, ?_, hs.ndepth,
    hs.nkeys, hs.edges_nodup⟩
  · intro u hu
    rcases mem_set_add.mp hu with h | rfl
    exacts [hs.disj u h, hv]
  · show st.dequeued.map Link.url ++ (st.queue ++ [link]).map Link.url
      = st.produced ++ [link.url]
    rw [List.map_append, ← List.append_assoc, hs.hist]
    rfl
  · show (st.produced ++ [link.url]).Nodup
    simp [List.nodup_append, hs.prod_nodup, hnp]
  · intro u
    show u ∈ set_add st.urls_to_visit link.url ∨ u ∈ st.visited_urls
      ↔ u ∈ st.produced ++ [link.url]
    rw [mem_set_add, List.mem_append, List.mem_singleton, ← hs.union u]
    tauto
  · intro l hl
    rcases List.mem_append.mp hl with h | h
    · exact hs.qdepth l h
    · simp only [List.mem_singleton] at h
      subst h
      exact hd

theorem pc_visited (cfg : Config) (link : Link) (st : SharedState) (cand : Option String) :
    (process_candidate cfg link st cand).1.visited_urls = st.visited_urls := by
  unfold process_candidate
  cases cand
  · rfl
  · rename_i next
    dsimp only
    split
    · split
      · rfl
      · split
        · rfl
        · rfl
    · rfl

theorem pc_delta (cfg : Config) (link : Link) (st : SharedState) (cand : Option String) :
    (process_candidate cfg link st cand).1.unfinished + st.queue.length
      = (process_candidate cfg link st cand).1.queue.length + st.unfinished := by
  unfold process_candidate
  cases cand
  · simp [Nat.add_comm]
  · rename_i next
    dsimp only
    split
    · split
      · simp [Nat.add_comm]
      · split
        · simp only [produce, List.length_append, List.length_singleton]
          omega
        · simp [Nat.add_comm]
    · simp [Nat.add_comm]

theorem pc_tv (cfg : Config) (link : Link) (st : SharedState) (cand : Option String)
    (u : String) (hu : u ∈ (process_candidate cfg link st cand).1.urls_to_visit) :
    u ∈ st.urls_to_visit ∨ u ∉ st.visited_urls := by
  unfold process_candidate at hu
  cases cand
  · exact Or.inl hu
  · rename_i next
    dsimp only at hu
    split at hu
    · split at hu
      · exact Or.inl hu
      · split at hu
        · rename_i hg
          rcases mem_set_add.mp hu with h | rfl
          · exact Or.inl h
          · exact Or.inr hg.2.1
        · exact Or.inl hu
    · exact Or.inl hu

theorem sinv_process_candidate (cfg : Config) (link : Link) (st : SharedState)
    (cand : Option String) (hs : SInv cfg st) (hd : link.depth < cfg.max_depth) :
    SInv cfg (process_candidate cfg link st cand).1 := by
  unfold process_candidate
  cases cand
  · exact hs
  · rename_i next
    dsimp only
    split
    · have hs1 : SInv cfg { st with nodes := add_node st.nodes ⟨link.depth + 1, next⟩,
                                    edges := add_edge st.edges link.url next } :=
        ⟨hs.tv_nodup, hs.v_nodup, hs.disj, hs.hist, hs.prod_nodup, hs.union, hs.fet,
         hs.qdepth, add_node_depth_le hs.ndepth hd, add_node_keys_nodup hs.nkeys,
         add_edge_nodup hs.edges_nodup⟩
      split
      · exact hs1
      · split
        · rename_i hg
          exact sinv_produce hs1 hg.2.1 hg.2.2 hd
        · exact hs1
    · exact hs

theorem cc_visited (cfg : Config) (link : Link) :
    ∀ (cs : List (Option String)) (st : SharedState),
    (consume_candidates cfg link cs st).1.visited_urls = st.visited_urls
  | [], st => rfl
  | c :: cs, st => by
    unfold consume_candidates
    rcases hpc : process_candidate cfg link st c with ⟨st1, e⟩
    have h1 : st1.visited_urls = st.visited_urls := by
      have := pc_visited cfg link st c
      rwa [hpc] at this
    cases e
    · dsimp only
      rw [cc_visited cfg link cs st1, h1]
    · exact h1

theorem cc_delta (cfg : Config) (link : Link) :
    ∀ (cs : List (Option String)) (st : SharedState),
    (consume_candidates cfg link cs st).1.unfinished + st.queue.length
      = (consume_candidates cfg link cs st).1.queue.length + st.unfinished
  | [], st => Nat.add_comm ..
  | c :: cs, st => by
    unfold consume_candidates
    rcases hpc : process_candidate cfg link st c with ⟨st1, e⟩
    have h1 : st1.unfinished + st.queue.length = st1.queue.length + st.unfinished := by
      have := pc_delta cfg link st c
      rwa [hpc] at this
    cases e
    · dsimp only
      have h2 := cc_delta cfg link cs st1
      omega
    · exact h1

theorem cc_tv (cfg : Config) (link : Link) :
    ∀ (cs : List (Option String)) (st : SharedState) (u : String),
    u ∈ (consume_candidates cfg link cs st).1.urls_to_visit →
    u ∈ st.urls_to_visit ∨ u ∉ st.visited_urls
  | [], st, u => Or.inl
  | c :: cs, st, u => by
    intro hu
    rw [consume_candidates] at hu
    rcases hpc : process_candidate cfg link st c with ⟨st1, e⟩
    rw [hpc] at hu
    have h1 : st1.visited_urls = st.visited_urls := by
      have := pc_visited cfg link st c
      rwa [hpc] at this
    have hptv : ∀ w ∈ st1.urls_to_visit, w ∈ st.urls_to_visit ∨ w ∉ st.visited_urls := by
      intro w hw
      apply pc_tv cfg link st c w
      rw [hpc]
      exact hw
    cases e
    · rcases cc_tv cfg link cs st1 u hu with h | h
      · exact hptv u h
      · rw [h1] at h
        exact Or.inr h
    · exact hptv u hu

theorem sinv_consume_candidates (cfg : Config) (link : Link) (hd : link.depth < cfg.max_depth) :
    ∀ (cs : List (Option String)) (st : SharedState), SInv cfg st →
    SInv cfg (consume_candidates cfg link cs st).1
  | [], _, hs => hs
  | c :: cs, st, hs => by
    unfold consume_candidates
    rcases hpc : process_candidate cfg link st c with ⟨st1, e⟩
    have hs1 : SInv cfg st1 := by
      have := sinv_process_candidate cfg link st c hs hd
      rwa [hpc] at this
    cases e
    · exact sinv_consume_candidates cfg link hd cs st1 hs1
    · exact hs1

/-! ## Lemmas about the post-fetch block -/

theorem sinv_after_fetch (cfg : Config) (link : Link) (hrefs : List (Option String))
    (st : SharedState) (hs : SInv cfg st) (hd : link.depth < cfg.max_depth) :
    SInv cfg (after_fetch cfg link hrefs st).1 := by
  unfold after_fetch
  split
  · exact hs
  · rename_i cands heq
    rcases hcc : consume_candidates cfg link cands st with ⟨st1, e1⟩
    have hs1 : SInv cfg st1 := by
      have := sinv_consume_candidates cfg link hd cands st hs
      rwa [hcc] at this
    cases e1
    · dsimp only
      split
      · exact hs1
      · rename_i st2 heq2
        exact sinv_finish hs1 heq2
    · exact hs1

theorem af_visited_mono (cfg : Config) (link : Link) (hrefs : List (Option String))
    (st : SharedState) (u : String) (hu : u ∈ st.visited_urls) :
    u ∈ (after_fetch cfg link hrefs st).1.visited_urls := by
  unfold after_fetch
  split
  · exact hu
  · rename_i cands heq
    rcases hcc : consume_candidates cfg link cands st with ⟨st1, e1⟩
    have h1 : st1.visited_urls = st.visited_urls := by
      have := cc_visited cfg link cands st
      rwa [hcc] at this
    cases e1
    · dsimp only
      split
      · exact h1 ▸ hu
      · rename_i st2 heq2
        obtain ⟨hmem, h2⟩ := finish_ok heq2
        subst h2
        exact mem_set_add.mpr (Or.inl (h1 ▸ hu))
    · exact h1 ▸ hu

theorem af_tv (cfg : Config) (link : Link) (hrefs : List (Option String))
    (st : SharedState) (u : String)
    (hu : u ∈ (after_fetch cfg link hrefs st).1.urls_to_visit) :
    u ∈ st.urls_to_visit ∨ u ∉ st.visited_urls := by
  unfold after_fetch at hu
  split at hu
  · exact Or.inl hu
  · rename_i cands heq
    rcases hcc : consume_candidates cfg link cands st with ⟨st1, e1⟩
    rw [hcc] at hu
    have hcctv : ∀ w, w ∈ st1.urls_to_visit → w ∈ st.urls_to_visit ∨ w ∉ st.visited_urls := by
      intro w hw
      apply cc_tv cfg link cands st w
      rw [hcc]
      exact hw
    cases e1
    · dsimp only at hu
      split at hu
      · exact hcctv u hu
      · rename_i st2 heq2
        obtain ⟨hmem, h2⟩ := finish_ok heq2
        subst h2
        exact hcctv u (List.mem_of_mem_erase hu)
    · exact hcctv u hu

theorem af_count (cfg : Config) (link : Link) (hrefs : List (Option String))
    (st : SharedState) (b : Nat) (hb : 1 ≤ b)
    (hc : st.unfinished = st.queue.length + b) :
    ((after_fetch cfg link hrefs st).2 = none →
      (after_fetch cfg link hrefs st).1.unfinished
        = (after_fetch cfg link hrefs st).1.queue.length + (b - 1)) ∧
    ((after_fetch cfg link hrefs st).2 ≠ none →
      (after_fetch cfg link hrefs st).1.unfinished
        = (after_fetch cfg link hrefs st).1.queue.length + b) := by
  unfold after_fetch
  split
  · refine ⟨fun h => ?_, fun _ => ?_⟩
    · simp at h
    · exact hc
  · rename_i cands heq
    rcases hcc : consume_candidates cfg link cands st with ⟨st1, e1⟩
    have hd : st1.unfinished + st.queue.length = st1.queue.length + st.unfinished := by
      have := cc_delta cfg link cands st
      rwa [hcc] at this
    cases e1
    · dsimp only
      split
      · rename_i e heq2
        refine ⟨fun h => ?_, fun _ => ?_⟩
        · simp at h
        · dsimp only
          omega
      · rename_i st2 heq2
        obtain ⟨hmem, h2⟩ := finish_ok heq2
        subst h2
        refine ⟨fun _ => ?_, fun h => ?_⟩
        · dsimp only
          omega
        · simp at h
    · dsimp only
      refine ⟨fun h => ?_, fun _ => ?_⟩
      · simp at h
      · omega

/-! ## Lemmas about the worker list -/

theorem mem_of_getElem2 {α : Type} {ws : List α} {i : Nat} {a : α}
    (h : ws[i]? = some a) : a ∈ ws := by
  obtain ⟨hlt, he⟩ := List.getElem?_eq_some.mp h
  exact he ▸ List.getElem_mem hlt

theorem filter_length_set {α : Type} (p : α → Bool) (ws : List α) :
    ∀ (i : Nat) (w0 w1 : α), ws[i]? = some w0 →
    ((ws.set i w1).filter p).length + (if p w0 then 1 else 0)
      = (ws.filter p).length + (if p w1 then 1 else 0) := by
  induction ws with
  | nil =>
    intro i w0 w1 h
    simp at h
  | cons w ws ih =>
    intro i w0 w1 h
    cases i with
    | zero =>
      simp only [List.getElem?_cons_zero, Option.some.injEq] at h
      subst h
      simp only [List.set]
      cases hp0 : p w <;> cases hp1 : p w1 <;>
        simp [List.filter_cons, hp0, hp1]
    | succ n =>
      simp only [List.getElem?_cons_succ] at h
      have ih2 := ih n w0 w1 h
      simp only [List.set]
      cases hp : p w <;> simp [List.filter_cons, hp] <;> omega

theorem filter_replicate_nil {α : Type} (p : α → Bool) (a : α) (hp : p a = false) :
    ∀ n : Nat, (List.replicate n a).filter p = []
  | 0 => rfl
  | n + 1 => by
    simp [List.replicate_succ, List.filter_cons, hp, filter_replicate_nil p a hp n]

/-! ## Preservation of the global invariant -/

theorem sinv_take_fetch {cfg : Config} {st : SharedState} {link : Link} {rest : List Link}
    (hsi : SInv cfg st) (hq : st.queue = link :: rest) (hlt : link.depth < cfg.max_depth) :
    SInv cfg { take_link st link rest with fetched := st.fetched ++ [link.url] } := by
  have hql : link ∈ st.queue := by
    rw [hq]
    exact List.mem_cons_self link rest
  refine ⟨hsi.tv_nodup, hsi.v_nodup, hsi.disj, ?_, hsi.prod_nodup, hsi.union, ?_, ?_, ?_,
    add_node_keys_nodup hsi.nkeys, hsi.edges_nodup⟩
  · show (st.dequeued ++ [link]).map Link.url ++ rest.map Link.url = st.produced
    have h1 := hsi.hist
    rw [hq] at h1
    simpa [List.map_append, List.append_assoc] using h1
  · show st.fetched ++ [link.url]
      = ((st.dequeued ++ [link]).filter (fun l => l.depth < cfg.max_depth)).map Link.url
    rw [List.filter_append, hsi.fet]
    simp [List.filter_cons, hlt]
  · intro l hl
    exact hsi.qdepth l (by rw [hq]; exact List.mem_cons_of_mem link hl)
  · exact add_node_depth_le hsi.ndepth (hsi.qdepth link hql)

theorem sinv_take_nofetch {cfg : Config} {st : SharedState} {link : Link} {rest : List Link}
    (hsi : SInv cfg st) (hq : st.queue = link :: rest) (hlt : ¬ link.depth < cfg.max_depth) :
    SInv cfg (take_link st link rest) := by
  have hql : link ∈ st.queue := by
    rw [hq]
    exact List.mem_cons_self link rest
  refine ⟨hsi.tv_nodup, hsi.v_nodup, hsi.disj, ?_, hsi.prod_nodup, hsi.union, ?_, ?_, ?_,
    add_node_keys_nodup hsi.nkeys, hsi.edges_nodup⟩
  · show (st.dequeued ++ [link]).map Link.url ++ rest.map Link.url = st.produced
    have h1 := hsi.hist
    rw [hq] at h1
    simpa [List.map_append, List.append_assoc] using h1
  · show st.fetched
      = ((st.dequeued ++ [link]).filter (fun l => l.depth < cfg.max_depth)).map Link.url
    rw [List.filter_append, hsi.fet]
    simp [List.filter_cons, hlt]
  · intro l hl
    exact hsi.qdepth l (by rw [hq]; exact List.mem_cons_of_mem link hl)
  · exact add_node_depth_le hsi.ndepth (hsi.qdepth link hql)

theorem inv_step {cfg : Config} {s t : CrawlState} (hs : Inv cfg s) (h : Step cfg s t) :
    Inv cfg t := by
  obtain ⟨hsi, hwd, hcnt⟩ := hs
  cases h with
  | dequeue i link rest hw hq =>
    have hlen : i < s.workers.length := (List.getElem?_eq_some.mp hw).1
    have hql : s.shared.queue.length = rest.length + 1 := by
      rw [hq]
      simp
    unfold dequeue_result
    by_cases hlt : link.depth < cfg.max_depth
    · rw [if_pos hlt]
      refine ⟨sinv_take_fetch hsi hq hlt, ?_, ?_⟩
      · intro j l hj
        by_cases hij : i = j
        · subst hij
          rw [List.getElem?_set_eq_of_lt _ hlen] at hj
          injection hj with hj2
          cases hj2
          exact hlt
        · rw [List.getElem?_set_ne hij] at hj
          exact hwd j l hj
      · have hset := filter_length_set busy s.workers i WStatus.idle (WStatus.fetching link) hw
        simp [busy] at hset
        show s.shared.unfinished
          = rest.length + (List.filter busy (s.workers.set i (WStatus.fetching link))).length
        omega
    · rw [if_neg hlt]
      have hSh : SInv cfg (take_link s.shared link rest) := sinv_take_nofetch hsi hq hlt
      split
      · rename_i sh2 heq2
        obtain ⟨hmem, h2⟩ := finish_ok heq2
        refine ⟨sinv_finish hSh heq2, hwd, ?_⟩
        subst h2
        show s.shared.unfinished - 1 = rest.length + (List.filter busy s.workers).length
        omega
      · rename_i e heq2
        refine ⟨hSh, ?_, ?_⟩
        · intro j l hj
          by_cases hij : i = j
          · subst hij
            rw [List.getElem?_set_eq_of_lt _ hlen] at hj
            cases hj
          · rw [List.getElem?_set_ne hij] at hj
            exact hwd j l hj
        · have hset := filter_length_set busy s.workers i WStatus.idle WStatus.crashed hw
          simp [busy] at hset
          show s.shared.unfinished
            = rest.length + (List.filter busy (s.workers.set i WStatus.crashed)).length
          omega
  | fetch_done i link hrefs hw =>
    have hld : link.depth < cfg.max_depth := hwd i link hw
    have hlen : i < s.workers.length := (List.getElem?_eq_some.mp hw).1
    have hb : 1 ≤ (s.workers.filter busy).length := by
      have hmem : WStatus.fetching link ∈ s.workers := mem_of_getElem2 hw
      have h2 : WStatus.fetching link ∈ s.workers.filter busy :=
        List.mem_filter.mpr ⟨hmem, rfl⟩
      exact List.length_pos_of_mem h2
    have hafc := af_count cfg link hrefs s.shared ((s.workers.filter busy).length) hb hcnt
    have hset := filter_length_set busy s.workers i (WStatus.fetching link)
      (worker_after (after_fetch cfg link hrefs s.shared).2) hw
    unfold fetch_done_result
    refine ⟨sinv_after_fetch cfg link hrefs s.shared hsi hld, ?_, ?_⟩
    · intro j l hj
      by_cases hij : i = j
      · subst hij
        rw [List.getElem?_set_eq_of_lt _ hlen] at hj
        cases hr : (after_fetch cfg link hrefs s.shared).2 <;> rw [hr] at hj <;>
          simp [worker_after] at hj
      · rw [List.getElem?_set_ne hij] at hj
        exact hwd j l hj
    · show (after_fetch cfg link hrefs s.shared).1.unfinished
        = (after_fetch cfg link hrefs s.shared).1.queue.length
          + (List.filter busy
              (s.workers.set i (worker_after (after_fetch cfg link hrefs s.shared).2))).length
      cases hr : (after_fetch cfg link hrefs s.shared).2 with
      | none =>
        rw [hr] at hafc hset
        have h3 := hafc.1 rfl
        simp [worker_after, busy] at hset
        simp only [worker_after]
        omega
      | some e =>
        rw [hr] at hafc hset
        have h3 := hafc.2 (by simp)
        simp [worker_after, busy] at hset
        simp only [worker_after]
        omega
  | fetch_fail i link hw =>
    have hlen : i < s.workers.length := (List.getElem?_eq_some.mp hw).1
    refine ⟨hsi, ?_, ?_⟩
    · intro j l hj
      by_cases hij : i = j
      · subst hij
        rw [List.getElem?_set_eq_of_lt _ hlen] at hj
        cases hj
      · rw [List.getElem?_set_ne hij] at hj
        exact hwd j l hj
    · have hset := filter_length_set busy s.workers i (WStatus.fetching link) WStatus.crashed hw
      simp [busy] at hset
      show s.shared.unfinished
        = s.shared.queue.length + (List.filter busy (s.workers.set i WStatus.crashed)).length
      omega

theorem inv_init (cfg : Config) (start_url : String) (n : Nat) :
    Inv cfg (init start_url n) := by
  refine ⟨⟨?_, ?_, ?_, ?_, ?_, ?_, ?_, ?_, ?_, ?_, ?_⟩, ?_, ?_⟩
  · simp [init]
  · simp [init]
  · simp [init]
  · simp [init]
  · simp [init]
  · intro u
    simp [init]
  · simp [init]
  · intro l hl
    simp only [init, List.mem_singleton] at hl
    subst hl
    exact Nat.zero_le _
  · simp [init]
  · simp [init]
  · simp [init]
  · intro i l hj
    simp only [init, List.getElem?_replicate] at hj
    split at hj
    · cases hj
    · cases hj
  · show (1 : Nat) = 1 + _
    rw [show (init start_url n).workers = List.replicate n WStatus.idle from rfl]
    rw [filter_replicate_nil busy WStatus.idle rfl n]
    rfl

theorem inv_reachable {cfg : Config} {start_url : String} {n : Nat} {s : CrawlState}
    (h : Reachable cfg start_url n s) : Inv cfg s := by
  unfold Reachable at h
  induction h with
  | refl => exact inv_init cfg start_url n
  | tail h1 h2 ih => exact inv_step ih h2

/-! ## Monotonicity of the visited set along steps -/

theorem step_visited_mono {cfg : Config} {s t : CrawlState} (h : Step cfg s t) :
    ∀ u ∈ s.shared.visited_urls, u ∈ t.shared.visited_urls := by
  intro u hu
  cases h with
  | dequeue i link rest hw hq =>
    unfold dequeue_result
    split
    · exact hu
    · dsimp only
      split
      · rename_i sh2 heq2
        obtain ⟨hmem, h2⟩ := finish_ok heq2
        subst h2
        exact mem_set_add.mpr (Or.inl hu)
      · exact hu
  | fetch_done i link hrefs hw =>
    exact af_visited_mono cfg link hrefs s.shared u hu
  | fetch_fail i link hw =>
    exact hu

theorem step_tv_new {cfg : Config} {s t : CrawlState} (h : Step cfg s t) :
    ∀ u ∈ t.shared.urls_to_visit, u ∈ s.shared.urls_to_visit ∨ u ∉ s.shared.visited_urls := by
  intro u hu
  cases h with
  | dequeue i link rest hw hq =>
    unfold dequeue_result at hu
    split at hu
    · exact Or.inl hu
    · dsimp only at hu
      split at hu
      · rename_i sh2 heq2
        obtain ⟨hmem, h2⟩ := finish_ok heq2
        subst h2
        exact Or.inl (List.mem_of_mem_erase hu)
      · exact Or.inl hu
  | fetch_done i link hrefs hw =>
    exact af_tv cfg link hrefs s.shared u hu
  | fetch_fail i link hw =>
    exact Or.inl hu

theorem visited_stays_out {cfg : Config} {s t : CrawlState}
    (h : Relation.ReflTransGen (Step cfg) s t) :
    ∀ u, u ∈ s.shared.visited_urls → u ∉ s.shared.urls_to_visit →
    u ∈ t.shared.visited_urls ∧ u ∉ t.shared.urls_to_visit := by
  induction h with
  | refl => exact fun u hv htv => ⟨hv, htv⟩
  | tail h1 hstep ih =>
    intro u hv htv
    obtain ⟨hv1, htv1⟩ := ih u hv htv
    refine ⟨step_visited_mono hstep u hv1, fun hmem => ?_⟩
    rcases step_tv_new hstep u hmem with h2 | h2
    · exact htv1 h2
    · exact h2 hv1

/-! ## A dead worker never recovers -/

theorem step_crashed_persists {cfg : Config} {s t : CrawlState} (h : Step cfg s t)
    (j : Nat) (hj : s.workers[j]? = some WStatus.crashed) :
    t.workers[j]? = some WStatus.crashed := by
  cases h with
  | dequeue i link rest hw hq =>
    have hij : i ≠ j := fun he => by
      rw [he, hj] at hw
      cases hw
    unfold dequeue_result
    split
    · show (s.workers.set i (WStatus.fetching link))[j]? = some WStatus.crashed
      rw [List.getElem?_set_ne hij]
      exact hj
    · dsimp only
      split
      · exact hj
      · show (s.workers.set i WStatus.crashed)[j]? = some WStatus.crashed
        rw [List.getElem?_set_ne hij]
        exact hj
  | fetch_done i link hrefs hw =>
    have hij : i ≠ j := fun he => by
      rw [he, hj] at hw
      cases hw
    show (s.workers.set i _)[j]? = some WStatus.crashed
    rw [List.getElem?_set_ne hij]
    exact hj
  | fetch_fail i link hw =>
    have hij : i ≠ j := fun he => by
      rw [he, hj] at hw
      cases hw
    show (s.workers.set i WStatus.crashed)[j]? = some WStatus.crashed
    rw [List.getElem?_set_ne hij]
    exact hj

theorem crashed_reachable_persists {cfg : Config} {s t : CrawlState}
    (h : Relation.ReflTransGen (Step cfg) s t) (j : Nat)
    (hj : s.workers[j]? = some WStatus.crashed) :
    t.workers[j]? = some WStatus.crashed := by
  induction h with
  | refl => exact hj
  | tail h1 hstep ih => exact step_crashed_persists hstep j ih

theorem crashed_busy_pos {ws : List WStatus} {j : Nat}
    (hj : ws[j]? = some WStatus.crashed) : 1 ≤ (ws.filter busy).length :=
  List.length_pos_of_mem (List.mem_filter.mpr ⟨mem_of_getElem2 hj, rfl⟩)

/-! ## The `max_depth = 0` invariant -/

theorem zinv_init (start_url : String) (n : Nat) : ZInv start_url (init start_url n) := by
  refine ⟨rfl, rfl, ?_, Or.inl ⟨rfl, rfl, rfl⟩⟩
  intro l hm
  have := List.eq_of_mem_replicate hm
  cases this

theorem zinv_step {cfg : Config} {start_url : String} {s t : CrawlState}
    (hmd : cfg.max_depth = 0) (hz : ZInv start_url s) (h : Step cfg s t) :
    ZInv start_url t := by
  obtain ⟨hf, he, hnw, hphase⟩ := hz
  cases h with
  | dequeue i link rest hw hq =>
    rcases hphase with ⟨hq1, hu1, hn1⟩ | ⟨hq2, hn2⟩
    · rw [hq1] at hq
      injection hq with h1 h2
      subst h1 h2
      unfold dequeue_result
      rw [if_neg (by rw [hmd]; exact Nat.not_lt_zero _)]
      have hnodes : add_node s.shared.nodes ⟨0, start_url⟩ = [(start_url, 0)] := by
        rw [hn1]
        rfl
      split
      · rename_i sh2 heq2
        obtain ⟨hmem, h2⟩ := finish_ok heq2
        subst h2
        exact ⟨hf, he, hnw, Or.inr ⟨rfl, hnodes⟩⟩
      · refine ⟨hf, he, ?_, Or.inr ⟨rfl, hnodes⟩⟩
        intro l hm
        rcases List.mem_or_eq_of_mem_set hm with hm2 | hm2
        · exact hnw l hm2
        · cases hm2
    · rw [hq2] at hq
      cases hq
  | fetch_done i link hrefs hw =>
    exact absurd (mem_of_getElem2 hw) (hnw link)
  | fetch_fail i link hw =>
    exact absurd (mem_of_getElem2 hw) (hnw link)

theorem zinv_reachable {cfg : Config} {start_url : String} {n : Nat} {s : CrawlState}
    (hmd : cfg.max_depth = 0) (h : Reachable cfg start_url n s) : ZInv start_url s := by
  unfold Reachable at h
  induction h with
  | refl => exact zinv_init start_url n
  | tail h1 h2 ih => exact zinv_step hmd ih h2

/-! ## The claims -/

/-- C2: at every observable instant of a crawl no url is in both
`urls_to_visit` and `visited_urls`, and once a url is in `visited_urls` it
is never again present in `urls_to_visit` at any later instant of the same
run. -/
theorem frontier_disjoint_and_no_reentry (cfg : Config) (start_url : String) (n : Nat)
    (s t : CrawlState) (hreach : Reachable cfg start_url n s)
    (hst : Relation.ReflTransGen (Step cfg) s t) :
    (∀ u ∈ s.shared.urls_to_visit, u ∉ s.shared.visited_urls) ∧
    (∀ u ∈ s.shared.visited_urls, u ∉ t.shared.urls_to_visit) := by
  have hi := inv_reachable hreach
  refine ⟨hi.sinv.disj, fun u hu => ?_⟩
  have hnot : u ∉ s.shared.urls_to_visit := fun h2 => hi.sinv.disj u h2 hu
  exact (visited_stays_out hst u hu hnot).2

/-- Witness for the C2 theorem at a concrete observable instant. -/
theorem frontier_disjoint_and_no_reentry_witness :
    "http://w2.test/" ∉ (init "http://w2.test/" 1).shared.visited_urls :=
  (frontier_disjoint_and_no_reentry ⟨[], 1, http_pattern⟩ "http://w2.test/" 1
      (init "http://w2.test/" 1) (init "http://w2.test/" 1)
      Relation.ReflTransGen.refl Relation.ReflTransGen.refl).1
    "http://w2.test/" (by decide)

/-- C3 (amended): every url is produced (enqueued) at most once, dequeued at
most once and fetched at most once; each url is one graph node and duplicate
edges collapse; in a run that has completed (unfinished-work counter zero)
every produced url was dequeued exactly once, and fetched exactly once when
its depth is strictly below `max_depth`; and a candidate that matches the
pattern, has an allowed domain and is in neither frontier set is always
enqueued by the candidate loop. -/
theorem crawl_claims_each_url_once (cfg : Config) (start_url : String) (n : Nat)
    (s : CrawlState) (h : Reachable cfg start_url n s) :
    (∀ u ∈ s.shared.produced, s.shared.produced.count u = 1) ∧
    (s.shared.dequeued.map Link.url).Nodup ∧
    s.shared.fetched.Nodup ∧
    (s.shared.nodes.map Prod.fst).Nodup ∧
    s.shared.edges.Nodup ∧
    (s.shared.unfinished = 0 →
      (∀ u ∈ s.shared.produced, (s.shared.dequeued.map Link.url).count u = 1) ∧
      (∀ l ∈ s.shared.dequeued, l.depth < cfg.max_depth → s.shared.fetched.count l.url = 1)) ∧
    (∀ (st : SharedState) (link : Link) (next : String),
      cfg.url_match next = true →
      has_valid_domain next cfg.allowed_domains = .ok true →
      next ∉ st.visited_urls → next ∉ st.urls_to_visit →
      (process_candidate cfg link st (some next)).1.produced = st.produced ++ [next]) := by
  obtain ⟨hsi, hwd, hcnt⟩ := inv_reachable h
  have hdn : (s.shared.dequeued.map Link.url).Nodup := by
    have hpn := hsi.prod_nodup
    rw [← hsi.hist] at hpn
    exact hpn.of_append_left
  have hfn : s.shared.fetched.Nodup := by
    rw [hsi.fet]
    exact List.Nodup.sublist ((List.filter_sublist s.shared.dequeued).map Link.url) hdn
  refine ⟨fun u hu => List.count_eq_one_of_mem hsi.prod_nodup hu, hdn, hfn, hsi.nkeys,
    hsi.edges_nodup, fun hz => ?_, fun st link next hm hdom hv htv => ?_⟩
  · have hq0 : s.shared.queue = [] := by
      rw [hcnt] at hz
      exact List.length_eq_zero.mp (by omega)
    have hprod : s.shared.dequeued.map Link.url = s.shared.produced := by
      have h2 := hsi.hist
      rw [hq0] at h2
      simpa using h2
    constructor
    · intro u hu
      rw [hprod]
      exact List.count_eq_one_of_mem hsi.prod_nodup hu
    · intro l hl hld
      have hmem : l.url ∈ s.shared.fetched := by
        rw [hsi.fet]
        exact List.mem_map.mpr ⟨l, List.mem_filter.mpr ⟨hl, by simpa using hld⟩, rfl⟩
      exact List.count_eq_one_of_mem hfn hmem
  · simp only [process_candidate]
    rw [if_pos hm]
    dsimp only
    rw [hdom]
    dsimp only
    rw [if_pos ⟨rfl, hv, htv⟩]
    rfl

/-- Witness for the C3 theorem at a concrete crawl state. -/
theorem crawl_claims_each_url_once_witness :
    (init "http://w3.test/" 1).shared.produced.count "http://w3.test/" = 1 :=
  (crawl_claims_each_url_once ⟨[], 1, http_pattern⟩ "http://w3.test/" 1
      (init "http://w3.test/" 1) Relation.ReflTransGen.refl).1
    "http://w3.test/" (by decide)

/-- Counterexample to C3 as stated: in a completed error-free run with
`maxDepth = 1`, the candidate `http://a.test/b` matches the pattern, has an
allowed domain, and is newly discovered, so the claim asserts it is fetched
exactly once — but being discovered at depth 1 = maxDepth it is dequeued and
marked visited without ever being fetched. -/
theorem fetch_exactly_once_cex :
    Reachable cexCfg "http://a.test/" 1 cexS3 ∧
    cexCfg.url_match "http://a.test/b" = true ∧
    has_valid_domain "http://a.test/b" cexCfg.allowed_domains = .ok true ∧
    cexS3.shared.unfinished = 0 ∧
    cexS3.shared.produced.count "http://a.test/b" = 1 ∧
    (cexS3.shared.dequeued.map Link.url).count "http://a.test/b" = 1 ∧
    cexS3.shared.fetched.count "http://a.test/b" = 0 := by
  refine ⟨?_, by decide, by decide, by decide, by decide, by decide, by decide⟩
  exact Relation.ReflTransGen.tail
    (Relation.ReflTransGen.tail
      (Relation.ReflTransGen.tail Relation.ReflTransGen.refl
        (Step.dequeue (init "http://a.test/" 1) 0 ⟨0, "http://a.test/"⟩ [] rfl rfl))
      (Step.fetch_done cexS1 0 ⟨0, "http://a.test/"⟩ [some "http://a.test/b"] rfl))
    (Step.dequeue cexS2 0 ⟨1, "http://a.test/b"⟩ [] rfl rfl)

/-- C1: the code does not recover from a fetch error.  In a concrete run
whose only fetch raises, the exception propagates out of `consume`: the
worker task dies, the claimed url is never moved from `urls_to_visit` to
`visited_urls`, `task_done` is never called, and no continuation of the run
can ever bring the unfinished-work counter to zero — `queue.join()` never
returns and the crawl hangs, contrary to the claim that the failure is
treated as zero outbound links and the crawl continues. -/
theorem fetch_error_kills_worker_and_crawl :
    Reachable c1Cfg "http://a.test/" 1 c1S2 ∧
    c1S2.workers = [WStatus.crashed] ∧
    "http://a.test/" ∉ c1S2.shared.visited_urls ∧
    "http://a.test/" ∈ c1S2.shared.urls_to_visit ∧
    c1S2.shared.unfinished = 1 ∧
    (∀ t : CrawlState, Relation.ReflTransGen (Step c1Cfg) c1S2 t →
      t.shared.unfinished ≠ 0) := by
  have hreach2 : Reachable c1Cfg "http://a.test/" 1 c1S2 :=
    Relation.ReflTransGen.tail
      (Relation.ReflTransGen.tail Relation.ReflTransGen.refl
        (Step.dequeue (init "http://a.test/" 1) 0 ⟨0, "http://a.test/"⟩ [] rfl rfl))
      (Step.fetch_fail c1S1 0 ⟨0, "http://a.test/"⟩ rfl)
  refine ⟨hreach2, by decide, by decide, by decide, by decide, ?_⟩
  intro t ht
  have hreach3 : Reachable c1Cfg "http://a.test/" 1 t :=
    Relation.ReflTransGen.trans hreach2 ht
  have hcr : t.workers[0]? = some WStatus.crashed :=
    crashed_reachable_persists ht 0 rfl
  have hinv := inv_reachable hreach3
  have hb := crashed_busy_pos hcr
  have hc := hinv.count
  omega

/-- Witness for the final conjunct of the C1 theorem at a concrete continuation. -/
theorem fetch_error_kills_worker_and_crawl_witness :
    c1S2.shared.unfinished ≠ 0 :=
  fetch_error_kills_worker_and_crawl.2.2.2.2.2 c1S2 Relation.ReflTransGen.refl

theorem any_key_iff {nodes : List (String × Nat)} {url : String} :
    nodes.any (fun p => p.1 == url) = true ↔ url ∈ nodes.map Prod.fst := by
  rw [List.any_eq_true]
  constructor
  · rintro ⟨p, hp, he⟩
    exact List.mem_map.mpr ⟨p, hp, by simpa using he⟩
  · intro hm
    obtain ⟨p, hp, he⟩ := List.mem_map.mp hm
    exact ⟨p, hp, by simpa using he⟩

theorem lookup_update {nodes : List (String × Nat)} {url : String} {d : Nat}
    (h : url ∈ nodes.map Prod.fst) :
    (nodes.map (fun p => if p.1 = url then (p.1, d) else p)).lookup url = some d := by
  induction nodes with
  | nil => simp at h
  | cons q qs ih =>
    simp only [List.map_cons]
    by_cases hq : q.1 = url
    · rw [if_pos hq]
      simp [List.lookup, hq]
    · rw [if_neg hq]
      have h2 : url ∈ qs.map Prod.fst := by
        rcases List.mem_map.mp h with ⟨p, hp, he⟩
        rcases List.mem_cons.mp hp with rfl | hp2
        · exact absurd he hq
        · exact List.mem_map.mpr ⟨p, hp2, he⟩
      have hbe : (url == q.1) = false := beq_eq_false_iff_ne.mpr (fun he => hq he.symm)
      simp [List.lookup, hbe, ih h2]

theorem lookup_append_absent {nodes : List (String × Nat)} {url : String} {d : Nat}
    (h : url ∉ nodes.map Prod.fst) :
    (nodes ++ [(url, d)]).lookup url = some d := by
  induction nodes with
  | nil => simp [List.lookup]
  | cons q qs ih =>
    have hq : ¬ q.1 = url := fun he => h (List.mem_map.mpr ⟨q, List.mem_cons_self q qs, he⟩)
    have h2 : url ∉ qs.map Prod.fst := fun hm => h (by simp [hm])
    have hbe : (url == q.1) = false := beq_eq_false_iff_ne.mpr (fun he => hq he.symm)
    simp [List.lookup, hbe, ih h2]

theorem add_node_keys (nodes : List (String × Nat)) (link : Link) :
    (add_node nodes link).map Prod.fst
      = if link.url ∈ nodes.map Prod.fst then nodes.map Prod.fst
        else nodes.map Prod.fst ++ [link.url] := by
  unfold add_node
  split
  · rename_i h
    rw [map_fst_update, if_pos (any_key_iff.mp h)]
  · rename_i h
    rw [if_neg (fun hm => h (any_key_iff.mpr hm)), List.map_append]
    rfl

/-- C4 (amended): `add_node` follows the networkx last-write-wins semantics:
after `add_node(graph, link)` the node `link.url` exists and its stored depth
attribute is `link.depth`, even when the node already existed with a
different depth; the node set itself gains `link.url` only when it was
absent. -/
theorem add_node_last_write_wins (nodes : List (String × Nat)) (link : Link) :
    (add_node nodes link).lookup link.url = some link.depth ∧
    (add_node nodes link).map Prod.fst
      = (if link.url ∈ nodes.map Prod.fst then nodes.map Prod.fst
         else nodes.map Prod.fst ++ [link.url]) := by
  refine ⟨?_, add_node_keys nodes link⟩
  unfold add_node
  split
  · rename_i h
    exact lookup_update (any_key_iff.mp h)
  · rename_i h
    exact lookup_append_absent (fun hm => h (any_key_iff.mpr hm))

/-- Counterexample to C4 as stated: re-adding the node `http://u.test/` at
depth 5 overwrites its stored depth — the depth of the first addition (0)
does not win. -/
theorem add_node_depth_overwritten_cex :
    (add_node (add_node [] ⟨0, "http://u.test/"⟩) ⟨5, "http://u.test/"⟩).lookup "http://u.test/"
      = some 5 ∧
    ¬ (add_node (add_node [] ⟨0, "http://u.test/"⟩) ⟨5, "http://u.test/"⟩).lookup "http://u.test/"
      = some 0 :=
  ⟨by decide, by decide⟩

/-- C5: in every observable state of every run, every node of the graph
carries a depth attribute at most `max_depth`. -/
theorem node_depth_le_max_depth (cfg : Config) (start_url : String) (n : Nat)
    (s : CrawlState) (h : Reachable cfg start_url n s) :
    ∀ p ∈ s.shared.nodes, p.2 ≤ cfg.max_depth :=
  (inv_reachable h).sinv.ndepth

/-- Witness for the C5 theorem: the node recorded by a concrete dequeue step
respects the bound. -/
theorem node_depth_le_max_depth_witness :
    (("http://w5.test/", 0) : String × Nat).2 ≤ 2 :=
  node_depth_le_max_depth c5Cfg "http://w5.test/" 1 c5S1
    (Relation.ReflTransGen.tail Relation.ReflTransGen.refl
      (Step.dequeue (init "http://w5.test/" 1) 0 ⟨0, "http://w5.test/"⟩ [] rfl rfl))
    ("http://w5.test/", 0) (by decide)

/-- C6: an unparseable candidate href is not rejected silently.  The href
`http://[bad` makes `urlparse` raise `ValueError("Invalid IPv6 URL")` inside
`fetch_links`, and a missing href (`None`) reaches
`re.match(url_regex, None)` which raises `TypeError`; neither exception is
caught, so in the concrete run the worker dies, the page url is never marked
visited, and the crawl stalls — the candidate is indeed never enqueued, but
by crashing rather than by silent rejection. -/
theorem malformed_href_raises :
    fetch_links_resolve "http://a.test/" [some "http://[bad"]
      = .error (.valueError "Invalid IPv6 URL") ∧
    (after_fetch c6Cfg ⟨0, "http://a.test/"⟩ [none] (init "http://a.test/" 1).shared).2
      = some (.typeError "expected string or bytes-like object, got NoneType") ∧
    Reachable c6Cfg "http://a.test/" 1 c6S2 ∧
    c6S2.workers = [WStatus.crashed] ∧
    "http://[bad" ∉ c6S2.shared.produced ∧
    "http://a.test/" ∉ c6S2.shared.visited_urls ∧
    c6S2.shared.unfinished = 1 := by
  refine ⟨by decide, by decide, ?_, by decide, by decide, by decide, by decide⟩
  exact Relation.ReflTransGen.tail
    (Relation.ReflTransGen.tail Relation.ReflTransGen.refl
      (Step.dequeue (init "http://a.test/" 1) 0 ⟨0, "http://a.test/"⟩ [] rfl rfl))
    (Step.fetch_done c6S1 0 ⟨0, "http://a.test/"⟩ [some "http://[bad"] rfl)

/-- C7: `urls_to_visit.remove(url)` followed by `visited_urls.add(url)`
(lines 101–102) raises `KeyError` when the url is not in `urls_to_visit`
— it does not silently succeed — and otherwise removes the url from
`urls_to_visit` and adds it to `visited_urls`. -/
theorem mark_visited_spec (tv v : List String) (url : String) :
    (url ∉ tv → mark_visited tv v url = .error (.keyError url)) ∧
    (url ∈ tv →
      mark_visited tv v url = .ok (tv.erase url, set_add v url) ∧
      url ∈ set_add v url ∧
      (tv.Nodup → url ∉ tv.erase url)) := by
  constructor
  · intro h
    unfold mark_visited
    rw [if_neg h]
  · intro h
    refine ⟨?_, mem_set_add.mpr (Or.inr rfl), fun hn hmem => ?_⟩
    · unfold mark_visited
      rw [if_pos h]
    · exact (hn.mem_erase_iff.mp hmem).1 rfl

/-- Witness for the C7 theorem at concrete frontier sets. -/
theorem mark_visited_spec_witness :
    mark_visited ["http://a.test/"] [] "http://b.test/"
      = .error (.keyError "http://b.test/") ∧
    mark_visited ["http://a.test/"] [] "http://a.test/"
      = .ok ([], ["http://a.test/"]) := by
  constructor
  · exact (mark_visited_spec ["http://a.test/"] [] "http://b.test/").1 (by decide)
  · have h := ((mark_visited_spec ["http://a.test/"] [] "http://a.test/").2 (by decide)).1
    rw [h]
    decide

/-- C8: in every run with `max_depth = 0` no fetch is ever performed and no
edge is ever added, and when the run completes (unfinished-work counter
zero) the graph is exactly the single start node at depth 0. -/
theorem max_depth_zero_graph (cfg : Config) (start_url : String) (n : Nat)
    (s : CrawlState) (hmd : cfg.max_depth = 0) (h : Reachable cfg start_url n s) :
    s.shared.fetched = [] ∧ s.shared.edges = [] ∧
    (s.shared.unfinished = 0 → s.shared.nodes = [(start_url, 0)]) := by
  obtain ⟨hf, he, hnw, hphase⟩ := zinv_reachable hmd h
  refine ⟨hf, he, fun hu => ?_⟩
  rcases hphase with ⟨hq1, hu1, hn1⟩ | ⟨hq2, hn2⟩
  · rw [hu] at hu1
    cases hu1
  · exact hn2

/-- Witness for the C8 theorem: the completed concrete `maxDepth = 0` run. -/
theorem max_depth_zero_graph_witness :
    c8S1.shared.fetched = [] ∧ c8S1.shared.edges = [] ∧
    c8S1.shared.nodes = [("http://w8.test/", 0)] := by
  have h := max_depth_zero_graph c8Cfg "http://w8.test/" 1 c8S1 rfl
    (Relation.ReflTransGen.tail Relation.ReflTransGen.refl
      (Step.dequeue (init "http://w8.test/" 1) 0 ⟨0, "http://w8.test/"⟩ [] rfl rfl))
  exact ⟨h.1, h.2.1, h.2.2 (by decide)⟩

/-- C9: `Link` equality is componentwise on the two fields, and the order
generated by `dataclass(order=True)` is lexicographic: depth first, then
url. -/
theorem link_eq_and_lt_lexicographic (a b : Link) :
    (a = b ↔ a.depth = b.depth ∧ a.url = b.url) ∧
    (a < b ↔ a.depth < b.depth ∨ (a.depth = b.depth ∧ a.url < b.url)) := by
  constructor
  · cases a
    cases b
    simp
  · show (if a.depth = b.depth then a.url < b.url else a.depth < b.depth) ↔ _
    by_cases hd : a.depth = b.depth
    · rw [if_pos hd]
      constructor
      · intro h2
        exact Or.inr ⟨hd, h2⟩
      · rintro (h2 | ⟨_, h2⟩)
        · rw [hd] at h2
          exact absurd h2 (lt_irrefl _)
        · exact h2
    · rw [if_neg hd]
      constructor
      · exact Or.inl
      · rintro (h2 | ⟨h1, _⟩)
        · exact h2
        · exact absurd h1 hd

/-- C10: the start url is seeded, fetched and recorded as a graph node even
when it matches neither the url pattern nor the allowed domains: the run
reaches a state in which the start url has been produced, fetched and added
as a node, although `url_match` rejects it and `has_valid_domain` does not
accept it. -/
theorem start_url_bypasses_filters (cfg : Config) (start_url : String) (n : Nat)
    (_hrej : cfg.url_match start_url = false)
    (_hdom : has_valid_domain start_url cfg.allowed_domains ≠ .ok true)
    (hmd : 0 < cfg.max_depth) (hn : 0 < n) :
    ∃ s : CrawlState, Reachable cfg start_url n s ∧
      start_url ∈ s.shared.produced ∧
      start_url ∈ s.shared.fetched ∧
      (start_url, 0) ∈ s.shared.nodes := by
  refine ⟨dequeue_result cfg (init start_url n) 0 ⟨0, start_url⟩ [], ?_, ?_, ?_, ?_⟩
  · refine Relation.ReflTransGen.tail Relation.ReflTransGen.refl
      (Step.dequeue (init start_url n) 0 ⟨0, start_url⟩ [] ?_ rfl)
    show (List.replicate n WStatus.idle)[0]? = some WStatus.idle
    rw [List.getElem?_replicate, if_pos hn]
  · unfold dequeue_result
    rw [if_pos hmd]
    simp [take_link, init]
  · unfold dequeue_result
    rw [if_pos hmd]
    simp [take_link, init]
  · unfold dequeue_result
    rw [if_pos hmd]
    simp [take_link, init, add_node]

/-- Witness for the C10 theorem: a start url with an unaccepted scheme and
no allowed domain is still crawled. -/
theorem start_url_bypasses_filters_witness :
    ∃ s : CrawlState, Reachable c10Cfg "ftp://x.test/" 1 s ∧
      "ftp://x.test/" ∈ s.shared.produced ∧
      "ftp://x.test/" ∈ s.shared.fetched ∧
      (("ftp://x.test/", 0) : String × Nat) ∈ s.shared.nodes :=
  start_url_bypasses_filters c10Cfg "ftp://x.test/" 1 rfl (by decide) (by decide) (by decide)

end Crawler
